import Mathlib

/-!
Verification development for the Simple_DropBox file-sync system.

The JavaScript sources are shallowly embedded as executable Lean
definitions:

* SHA-256 is modelled as a free term algebra `Hash`: `Hash.content s`
  stands for a file's hex content digest `s`, and `Hash.node l r` stands
  for `sha256(l.hash + r.hash)` as computed by
  `MerkleNode.calculateHash` in `client/lib/merkle-tree.js`.  Distinct
  terms denote distinct digests (collision-freeness of SHA-256).
* A JavaScript `Map` is modelled as an association list in insertion
  order: `set` replaces in place when the key is present and appends
  otherwise, exactly like `Map.prototype.set`.
* `new Date().toISOString()` and `Date.now()` are passed in explicitly
  as `now : String` / `nowMs : Nat` parameters.
* JavaScript truthiness on optional strings (`x || y`, `x || null`) is
  modelled by `jsStrOr` / `jsStrOrNull`: both `null`/absent and the
  empty string are falsy.
-/

namespace DropBox

/-- Free model of the SHA-256 digests appearing in the Merkle tree:
leaf digests come from file contents, inner digests from
`sha256(left.hash + right.hash)`, and `sha256('empty')` is its own
constant. -/
inductive Hash where
  | content : String → Hash
  | node : Hash → Hash → Hash
  | emptyDigest : Hash
deriving DecidableEq, Repr

/-- Leaf payload of the client Merkle tree (`createFileNode` in
`client/lib/merkle-tree.js`) and, equally, one element of a snapshot's
`files` array. -/
structure FileData where
  filename : String
  file_path : String
  local_url : Option String
  s3_url : Option String
  hash : String
  size : Nat
  timestamp : String
  mime_type : Option String
deriving DecidableEq, Repr

/-- Argument object passed to `addOrUpdateFile` / `createFileNode`.
`timestamp` is `none` at the `sync.js` call site, where the field is
absent from the object literal. -/
structure Metadata where
  filename : String
  local_url : Option String
  s3_url : Option String
  hash : String
  size : Nat
  timestamp : Option String
  mime_type : Option String
deriving DecidableEq, Repr

/-- JavaScript `x || d` on an optional string: `null`, absent and `""`
all fall through to the default. -/
def jsStrOr (v : Option String) (d : String) : String :=
  match v with
  | some s => if s = "" then d else s
  | none => d

/-- JavaScript `x || null` on an optional string. -/
def jsStrOrNull (v : Option String) : Option String :=
  match v with
  | some s => if s = "" then none else some s
  | none => none

/-- Lookup in a `Map` keyed by `file_path` (first entry with the key). -/
def mapGet : List FileData → String → Option FileData
  | [], _ => none
  | e :: rest, p => if e.file_path = p then some e else mapGet rest p

/-- `Map.prototype.set` keyed by `file_path`: replace in place if the
key is present, append otherwise. -/
def mapSet : List FileData → FileData → List FileData
  | [], d => [d]
  | e :: rest, d => if e.file_path = d.file_path then d :: rest else e :: mapSet rest d

/-- `Map.prototype.delete` keyed by `file_path`; returns the new list
and whether an entry was removed. -/
def mapDel : List FileData → String → List FileData × Bool
  | [], _ => ([], false)
  | e :: rest, p =>
    if e.file_path = p then (rest, true)
    else
      let r := mapDel rest p
      (e :: r.1, r.2)

/-- Insert a list of entries into an empty `Map` by successive `set`s
(the `for ... of` loops building `myFiles` / `otherFiles`). -/
def buildMap (files : List FileData) : List FileData :=
  files.foldl mapSet []

/-- Keys (in order) of a `file_path`-keyed `Map`. -/
def keysOf (l : List FileData) : List String :=
  l.map FileData.file_path

/-- Leaf data produced by `createFileNode(filePath, metadata)`. -/
def createData (filePath : String) (m : Metadata) (now : String) : FileData :=
  { filename := m.filename
    file_path := filePath
    local_url := m.local_url
    s3_url := jsStrOrNull m.s3_url
    hash := m.hash
    size := m.size
    timestamp := jsStrOr m.timestamp now
    mime_type := m.mime_type }

/-- Leaf data after the update branch of `addOrUpdateFile`:
`{...existingNode.data, ...metadata, timestamp: now}`.  Every call site
passes all of `filename/local_url/s3_url/hash/size/mime_type`, the
spread copies them verbatim, `file_path` stays the key, and `timestamp`
is overwritten with the current time. -/
def updatedData (old : FileData) (m : Metadata) (now : String) : FileData :=
  { filename := m.filename
    file_path := old.file_path
    local_url := m.local_url
    s3_url := m.s3_url
    hash := m.hash
    size := m.size
    timestamp := now
    mime_type := m.mime_type }

/-- One leaf `MerkleNode` of the client tree: its `data` and its STORED
`hash` field.  The two can disagree: the `MerkleNode` constructor runs
`this.hash = this.calculateHash()` BEFORE assigning
`this.isLeaf = !left && !right`, so during construction `this.isLeaf`
is `undefined`, the leaf branch of `calculateHash` is skipped, and —
a leaf having no children — every leaf built by `createFileNode`
stores `sha256('empty')`.  The stored hash only becomes the content
hash when `recalculateHash()` runs later (the update branch of
`addOrUpdateFile`, or `updateS3Url`), with `this.isLeaf` now `true`. -/
structure LeafNode where
  data : FileData
  nodeHash : Hash
deriving DecidableEq, Repr

/-- Lookup in the leaf `Map` (first node whose key matches). -/
def leafGet : List LeafNode → String → Option LeafNode
  | [], _ => none
  | ln :: rest, p => if ln.data.file_path = p then some ln else leafGet rest p

/-- `Map.prototype.set` on the leaf map: replace in place if the key is
present, append otherwise. -/
def leafSet : List LeafNode → LeafNode → List LeafNode
  | [], ln => [ln]
  | e :: rest, ln =>
    if e.data.file_path = ln.data.file_path then ln :: rest else e :: leafSet rest ln

/-- `Map.prototype.delete` on the leaf map. -/
def leafDel : List LeafNode → String → List LeafNode × Bool
  | [], _ => ([], false)
  | e :: rest, p =>
    if e.data.file_path = p then (rest, true)
    else
      let r := leafDel rest p
      (e :: r.1, r.2)

/-- Keys (in order) of the leaf map. -/
def leafKeys (l : List LeafNode) : List String :=
  l.map fun ln => ln.data.file_path

/-- `createFileNode(filePath, metadata)`: a fresh leaf node.  Its
stored hash is `sha256('empty')` because the constructor computes
`this.hash` before `this.isLeaf` is assigned (see `LeafNode`). -/
def createFileNode (filePath : String) (m : Metadata) (now : String) : LeafNode :=
  ⟨createData filePath m now, Hash.emptyDigest⟩

/-- Client Merkle tree: the `leaves` map in insertion order.  The tree
shape itself is rebuilt from this list on every query (`rebuildTree`),
so the list of leaf nodes is the whole state. -/
structure MerkleTree where
  leaves : List LeafNode
deriving DecidableEq, Repr

/-- Reachable node shapes built by `rebuildTree`: leaf nodes, and
internal nodes with two children (`inner2`) or a left child and a
`null` right child (`inner1`). -/
inductive MNode where
  | leaf : LeafNode → MNode
  | inner2 : MNode → MNode → MNode
  | inner1 : MNode → MNode
deriving DecidableEq, Repr

/-- Hash of a node as `rebuildTree`/`getRootHash` observe it: a leaf
contributes its STORED hash (`sha256('empty')` until a
`recalculateHash` has run on it); an internal node hashes the
concatenation of both children's hashes (for internal nodes the
constructor's early `calculateHash` call is harmless, since their
branch of `calculateHash` never consults `this.isLeaf`); a single-child
node passes its child's hash through. -/
def MNode.hashOf : MNode → Hash
  | .leaf ln => ln.nodeHash
  | .inner2 l r => .node l.hashOf r.hashOf
  | .inner1 l => l.hashOf

/-- One pass of the bottom-up pairing loop in `rebuildTree`:
`currentLevel[i]` is paired with `currentLevel[i+1] || null`. -/
def pairUp : List MNode → List MNode
  | [] => []
  | [a] => [MNode.inner1 a]
  | a :: b :: rest => MNode.inner2 a b :: pairUp rest

/-- The `while (currentLevel.length > 1)` loop of `rebuildTree`,
with the initial level length as fuel (the level shrinks by at least
one element per pass, so this fuel always suffices). -/
def buildRootAux : Nat → List MNode → Option MNode
  | _, [] => none
  | _, [n] => some n
  | 0, _ :: _ :: _ => none
  | fuel + 1, a :: b :: rest => buildRootAux fuel (pairUp (a :: b :: rest))

/-- Root node obtained by `rebuildTree` from a list of leaf nodes. -/
def buildRoot (l : List MNode) : Option MNode :=
  buildRootAux l.length l

/-- The same bottom-up pass, carried out directly on hashes. -/
def hashLevel : List Hash → List Hash
  | [] => []
  | [a] => [a]
  | a :: b :: rest => Hash.node a b :: hashLevel rest

/-- The hash computed by the pairing loop from a list of leaf hashes. -/
def rootHashAux : Nat → List Hash → Option Hash
  | _, [] => none
  | _, [h] => some h
  | 0, _ :: _ :: _ => none
  | fuel + 1, a :: b :: rest => rootHashAux fuel (hashLevel (a :: b :: rest))

/-- Root hash determined by a sequence of leaf hashes. -/
def rootHashOf (l : List Hash) : Option Hash :=
  rootHashAux l.length l

/-- `getRootHash()`: `null` for an empty tree, otherwise the root
node's hash after `rebuildTree`. -/
def MerkleTree.getRootHash (t : MerkleTree) : Option Hash :=
  (buildRoot (t.leaves.map MNode.leaf)).map MNode.hashOf

/-- `addOrUpdateFile(filePath, metadata)` followed by the implicit
`rebuildTree`.  The update branch merges the metadata into the existing
node's data and then calls `recalculateHash()`: at that point
`this.isLeaf` is `true`, so the stored hash becomes the (new) content
hash.  The create branch goes through `createFileNode`, whose stored
hash is `sha256('empty')`. -/
def MerkleTree.addOrUpdateFile (t : MerkleTree) (filePath : String) (m : Metadata)
    (now : String) : MerkleTree :=
  match leafGet t.leaves filePath with
  | some old =>
    let newData := updatedData old.data m now
    ⟨leafSet t.leaves ⟨newData, Hash.content newData.hash⟩⟩
  | none => ⟨leafSet t.leaves (createFileNode filePath m now)⟩

/-- `updateS3Url(filePath, s3Url)`: sets the leaf's `s3_url` and
`timestamp`, runs `recalculateHash()` (the stored hash becomes the
content hash — a change when the leaf still carried the constructor's
`sha256('empty')`), and returns `true`; when the path is absent it
returns `false` and leaves the tree alone. -/
def MerkleTree.updateS3Url (t : MerkleTree) (filePath s3Url : String)
    (now : String) : MerkleTree × Bool :=
  match leafGet t.leaves filePath with
  | some old =>
    let newData := { old.data with s3_url := some s3Url, timestamp := now }
    (⟨leafSet t.leaves ⟨newData, Hash.content newData.hash⟩⟩, true)
  | none => (t, false)

/-- `removeFile(filePath)`. -/
def MerkleTree.removeFile (t : MerkleTree) (p : String) : MerkleTree × Bool :=
  let r := leafDel t.leaves p
  (⟨r.1⟩, r.2)

/-- `getAllFiles()`: the leaf data in map order (`{file_path, ...data}`
equals `data` because `data.file_path` is the map key). -/
def MerkleTree.getAllFiles (t : MerkleTree) : List FileData :=
  t.leaves.map LeafNode.data

/-- Wire snapshot `{rootHash, timestamp, files}`. -/
structure Snapshot where
  rootHash : Option Hash
  timestamp : String
  files : List FileData
deriving DecidableEq, Repr

/-- `toJSON()`: only the leaf data travels; the stored node hashes are
not serialised. -/
def MerkleTree.toJSON (t : MerkleTree) (now : String) : Snapshot :=
  ⟨t.getRootHash, now, t.getAllFiles⟩

/-- Metadata view of a snapshot entry as consumed by `createFileNode`
inside `fromJSON` (all fields present). -/
def fileAsMetadata (f : FileData) : Metadata :=
  { filename := f.filename
    local_url := f.local_url
    s3_url := f.s3_url
    hash := f.hash
    size := f.size
    timestamp := some f.timestamp
    mime_type := f.mime_type }

/-- The leaf map rebuilt by `fromJSON`: `createFileNode(file.file_path,
file)` for each snapshot entry, into a cleared map — so every rebuilt
leaf stores the fresh `sha256('empty')` hash. -/
def buildLeaves (files : List FileData) (now : String) : List LeafNode :=
  files.foldl (fun acc f => leafSet acc (createFileNode f.file_path (fileAsMetadata f) now)) []

/-- Client `fromJSON(data)` followed by `rebuildTree`. -/
def MerkleTree.fromJSON (s : Snapshot) (now : String) : MerkleTree :=
  ⟨buildLeaves s.files now⟩

/-- Result object of both `getDifferences` implementations. -/
structure Differences where
  added : List FileData
  modified : List FileData
  deleted : List FileData
deriving DecidableEq, Repr

/-- Client `MerkleTree.getDifferences(otherTree)`
(`client/lib/merkle-tree.js`): both sides are re-keyed through a fresh
`Map`, then one pass over `myFiles` splits into `added`/`modified` and
one pass over `otherFiles` collects `deleted`. -/
def MerkleTree.getDifferences (t other : MerkleTree) : Differences :=
  let myFiles := buildMap t.getAllFiles
  let otherFiles := buildMap other.getAllFiles
  { added := myFiles.filter fun f => (mapGet otherFiles f.file_path).isNone
    modified := myFiles.filter fun f =>
      match mapGet otherFiles f.file_path with
      | some g => f.hash != g.hash || f.timestamp != g.timestamp
      | none => false
    deleted := otherFiles.filter fun f => (mapGet myFiles f.file_path).isNone }

/-- Server-side tree (`routes/merkle.js`): a bare `file_path → file`
map filled by `fromJSON`. -/
structure ServerTree where
  files : List FileData
deriving DecidableEq, Repr

/-- Server `MerkleTree.fromJSON(data)`: `files.set(file.file_path,
file)` for each entry, entries stored verbatim. -/
def ServerTree.fromJSON (files : List FileData) : ServerTree :=
  ⟨buildMap files⟩

/-- Server `getAllFiles()`. -/
def ServerTree.getAllFiles (t : ServerTree) : List FileData :=
  t.files

/-- Server `MerkleTree.getDifferences(otherTree)` (`routes/merkle.js`):
`myFiles` is a copy of `this.files`, `otherFiles` is rebuilt from
`otherTree.getAllFiles()`. -/
def ServerTree.getDifferences (t other : ServerTree) : Differences :=
  let myFiles := t.files
  let otherFiles := buildMap other.getAllFiles
  { added := myFiles.filter fun f => (mapGet otherFiles f.file_path).isNone
    modified := myFiles.filter fun f =>
      match mapGet otherFiles f.file_path with
      | some g => f.hash != g.hash || f.timestamp != g.timestamp
      | none => false
    deleted := otherFiles.filter fun f => (mapGet myFiles f.file_path).isNone }

/-- Character-level test that `pat` occurs at the head of `l`. -/
def listStarts : List Char → List Char → Bool
  | [], _ => true
  | _ :: _, [] => false
  | p :: ps, h :: hs => p == h && listStarts ps hs

/-- Character-level test that `pat` occurs somewhere in `l`. -/
def listHasRun (pat : List Char) : List Char → Bool
  | [] => pat.isEmpty
  | c :: rest => listStarts pat (c :: rest) || listHasRun pat rest

/-- Test of the regular expression anchors used by `shouldIgnoreFile`. -/
def strBegins (s pat : String) : Bool :=
  listStarts pat.data s.data

/-- Suffix test (for the `~$`, `\.tmp$`, `\.log$` patterns). -/
def strEnds (s pat : String) : Bool :=
  listStarts pat.data.reverse s.data.reverse

/-- Unanchored substring test (for `node_modules` and `\.git`). -/
def strHas (s pat : String) : Bool :=
  listHasRun pat.data s.data

/-- Characters of the last `/`-separated path component
(`path.basename` on the shapes of path used by the watcher). -/
def lastSegment : List Char → List Char → List Char
  | [], acc => acc
  | c :: rest, acc => if c = '/' then lastSegment rest [] else lastSegment rest (acc ++ [c])

/-- Last component of a path. -/
def basename (p : String) : String :=
  ⟨lastSegment p.data []⟩

/-- The six ignore patterns of `shouldIgnoreFile`, each applied to one
string: hidden names, `~`/ `.tmp`/ `.log` suffixes, and the
`node_modules` / `.git` substrings. -/
def ignoreTest (s : String) : List Bool :=
  [strBegins s ".", strEnds s "~", strEnds s ".tmp", strEnds s ".log",
   strHas s "node_modules", strHas s ".git"]

/-- `shouldIgnoreFile(filePath)`: each pattern is tested against the
basename and against the full path. -/
def shouldIgnoreFile (filePath : String) : Bool :=
  ((ignoreTest (basename filePath)).zip (ignoreTest filePath)).any fun x => x.1 || x.2

/-- Characters after the last `.` of a string, if any. -/
def afterLastDot : List Char → Option (List Char)
  | [] => none
  | c :: rest =>
    match afterLastDot rest with
    | some r => some r
    | none => if c = '.' then some rest else none

/-- `path.extname` on the watcher's paths: the suffix of the basename
from its last `.`, where a dot in first position does not count. -/
def extname (p : String) : String :=
  match (basename p).data with
  | [] => ""
  | _ :: rest =>
    match afterLastDot rest with
    | some r => String.mk ('.' :: r)
    | none => ""

/-- Lowercase an ASCII character. -/
def asciiLower (c : Char) : Char :=
  if 'A' ≤ c ∧ c ≤ 'Z' then Char.ofNat (c.toNat + 32) else c

/-- Extension table of `getMimeType`. -/
def mimeLookup : List (String × String) :=
  [(".txt", "text/plain"), (".json", "application/json"),
   (".js", "application/javascript"), (".html", "text/html"),
   (".css", "text/css"), (".png", "image/png"), (".jpg", "image/jpeg"),
   (".jpeg", "image/jpeg"), (".gif", "image/gif"),
   (".pdf", "application/pdf"), (".zip", "application/zip")]

/-- Generic association-list read for `String`-keyed JavaScript maps. -/
def assocGet {α : Type} : List (String × α) → String → Option α
  | [], _ => none
  | (k, v) :: rest, p => if k = p then some v else assocGet rest p

/-- Generic `Map.prototype.set` for `String`-keyed maps. -/
def assocSet {α : Type} : List (String × α) → String → α → List (String × α)
  | [], k, v => [(k, v)]
  | (k0, v0) :: rest, k, v =>
    if k0 = k then (k, v) :: rest else (k0, v0) :: assocSet rest k v

/-- Generic `Map.prototype.delete` for `String`-keyed maps. -/
def assocDel {α : Type} : List (String × α) → String → List (String × α)
  | [], _ => []
  | (k0, v0) :: rest, k => if k0 = k then rest else (k0, v0) :: assocDel rest k

/-- `getMimeType(filePath)`. -/
def getMimeType (filePath : String) : String :=
  let ext : String := ⟨(extname filePath).data.map asciiLower⟩
  match assocGet mimeLookup ext with
  | some m => m
  | none => "application/octet-stream"

/-- Contents of one file visible to the watcher: its SHA-256 hex digest
and its size (the only attributes the code reads). -/
structure FsFile where
  hash : String
  size : Nat
deriving DecidableEq, Repr

/-- Local filesystem under the watch directory, as a partial map from
path to file contents.  Paths are taken relative to the watch root, so
`path.relative(WATCH_DIRECTORY, p)` and `path.join(WATCH_DIRECTORY, p)`
are both the identity in this model. -/
abbrev Fs := String → Option FsFile

/-- `calculateFileHash(filePath)`: the content digest, `null` when the
file cannot be read. -/
def calculateFileHash (fs : Fs) (p : String) : Option String :=
  (fs p).map FsFile.hash

/-- Writing a downloaded file to disk. -/
def fsWrite (fs : Fs) (p : String) (c : FsFile) : Fs :=
  fun q => if q = p then some c else fs q

/-- Removing a file from disk. -/
def fsRemove (fs : Fs) (p : String) : Fs :=
  fun q => if q = p then none else fs q

/-- `Set.prototype.add` on a list holding distinct elements. -/
def setAdd (l : List String) (x : String) : List String :=
  if l.contains x then l else l ++ [x]

/-- `Set.prototype.delete`. -/
def setDel (l : List String) (x : String) : List String :=
  l.filter fun y => y != x

/-- One `recentlyDownloaded` record: the hash passed to
`markDownloadComplete` (`null` on its error path) and `Date.now()` at
completion. -/
structure RecentEntry where
  hash : Option String
  timestamp : Nat
deriving DecidableEq, Repr

/-- One `uploadQueue` record, as written by `queueUpload`. -/
structure UploadItem where
  fullPath : String
  relativePath : String
  timestamp : Nat
  hash : Option String
deriving DecidableEq, Repr

/-- Module-level mutable state of `client/lib/file-watcher.js` that the
embedded operations touch: the upload queue, the `downloadingFiles`
set, the `recentlyDownloaded` map and the Merkle tree.
(`isProcessing` guards only the upload drain, which is not needed by
the claims modelled here.) -/
structure WatcherState where
  uploadQueue : List (String × UploadItem)
  downloadingFiles : List String
  recentlyDownloaded : List (String × RecentEntry)
  tree : MerkleTree
deriving DecidableEq, Repr

/-- Filesystem event kinds delivered by chokidar. -/
inductive FsEvent where
  | add
  | change
  | unlink
deriving DecidableEq, Repr

/-- `queueUpload(filePath, relativePath)`: upsert into the upload
queue, re-reading the hash from disk. -/
def queueUpload (fs : Fs) (s : WatcherState) (filePath relativePath : String)
    (nowMs : Nat) : WatcherState :=
  let item : UploadItem :=
    { fullPath := filePath
      relativePath := relativePath
      timestamp := nowMs
      hash := calculateFileHash fs filePath }
  { s with uploadQueue := assocSet s.uploadQueue relativePath item }

/-- Local-state effect of `handleLocalDeletion(relativePath)`: the tree
entry is removed (the server delete and the snapshot pushes are
external calls). -/
def handleLocalDeletion (s : WatcherState) (relativePath : String) : WatcherState :=
  { s with tree := (s.tree.removeFile relativePath).1 }

/-- `handleFileChange(filePath, eventType)` from
`client/lib/file-watcher.js`: ignore-filter, downloading-set skip,
recently-downloaded echo suppression, tree upsert and upload queueing
for `add`/`change`, deletion propagation for `unlink`. -/
def handleFileChange (fs : Fs) (s : WatcherState) (filePath : String) (ev : FsEvent)
    (now : String) (nowMs : Nat) : WatcherState :=
  if shouldIgnoreFile filePath then s
  else
    let relativePath := filePath
    if s.downloadingFiles.contains relativePath then s
    else if ev = FsEvent.unlink then handleLocalDeletion s relativePath
    else
      let currentHash := calculateFileHash fs filePath
      let proceed : WatcherState :=
        let s1 : WatcherState :=
          match fs filePath with
          | some f =>
            let md : Metadata :=
              { filename := basename filePath
                local_url := some filePath
                s3_url := none
                hash := f.hash
                size := f.size
                timestamp := some now
                mime_type := some (getMimeType filePath) }
            { s with tree := s.tree.addOrUpdateFile relativePath md now }
          | none => s
        queueUpload fs s1 filePath relativePath nowMs
      match assocGet s.recentlyDownloaded relativePath with
      | some r => if currentHash = r.hash then s else proceed
      | none => proceed

/-- `markAsDownloading(relativePath)`. -/
def markAsDownloading (s : WatcherState) (relativePath : String) : WatcherState :=
  { s with downloadingFiles := setAdd s.downloadingFiles relativePath }

/-- `markDownloadComplete(relativePath, fileHash)`: leave the
downloading set and record the written hash with its completion time
(the TTL timer is `expireRecentDownload` below). -/
def markDownloadComplete (s : WatcherState) (relativePath : String)
    (fileHash : Option String) (nowMs : Nat) : WatcherState :=
  { s with downloadingFiles := setDel s.downloadingFiles relativePath
           recentlyDownloaded := assocSet s.recentlyDownloaded relativePath
             { hash := fileHash, timestamp := nowMs } }

/-- The `setTimeout` callback inside `markDownloadComplete`: drop the
record once it is older than the 10-second TTL. -/
def expireRecentDownload (s : WatcherState) (relativePath : String) (nowMs : Nat) :
    WatcherState :=
  match assocGet s.recentlyDownloaded relativePath with
  | some e =>
    if nowMs - e.timestamp > 10000 then
      { s with recentlyDownloaded := assocDel s.recentlyDownloaded relativePath }
    else s
  | none => s

/-- Server-perspective diff entry as seen by the client sync loop:
snapshot fields plus the database `id` attached by URL enrichment
(absent on `deleted` entries and on enrichment misses). -/
structure RemoteFile where
  filename : String
  file_path : String
  local_url : Option String
  s3_url : Option String
  hash : String
  size : Nat
  timestamp : String
  mime_type : Option String
  id : Option Nat
deriving DecidableEq, Repr

/-- JavaScript truthiness of an optional string field. -/
def jsTruthyStr : Option String → Bool
  | some s => s != ""
  | none => false

/-- JavaScript truthiness of an optional numeric field. -/
def jsTruthyNat : Option Nat → Bool
  | some n => n != 0
  | none => false

/-- `downloadFileFromServer(fileMetadata)` from `client/lib/sync.js`.
`fetch` is the content delivered by `api.downloadFile` (`none` when the
download throws, which lands in the `catch` block).  The function
returns the new watcher state and filesystem. -/
def downloadFileFromServer (fs : Fs) (fetch : Option FsFile) (s : WatcherState)
    (fm : RemoteFile) (now : String) (nowMs : Nat) : WatcherState × Fs :=
  let localPath := fm.file_path
  let relativePath := localPath
  let proceed : WatcherState × Fs :=
    let s1 := markAsDownloading s relativePath
    if jsTruthyNat fm.id then
      match fetch with
      | none => (markDownloadComplete s1 relativePath none nowMs, fs)
      | some content =>
        let fs1 := fsWrite fs localPath content
        let md : Metadata :=
          { filename := fm.filename
            local_url := some localPath
            s3_url := fm.s3_url
            hash := fm.hash
            size := fm.size
            timestamp := none
            mime_type := fm.mime_type }
        let s2 := { s1 with tree := s1.tree.addOrUpdateFile relativePath md now }
        (markDownloadComplete s2 relativePath (some fm.hash) nowMs, fs1)
    else (s1, fs)
  match fs localPath with
  | some f => if f.hash = fm.hash then (s, fs) else proceed
  | none => proceed

/-- Local effect of `handleServerDeletion(fileMetadata)`: remove the
file if present and drop the tree entry. -/
def handleServerDeletion (fs : Fs) (s : WatcherState) (fm : RemoteFile) :
    WatcherState × Fs :=
  let localPath := fm.file_path
  let fs1 :=
    match fs localPath with
    | some _ => fsRemove fs localPath
    | none => fs
  ({ s with tree := (s.tree.removeFile localPath).1 }, fs1)

/-- Externally visible actions of one `performSync` invocation. -/
inductive SyncAction where
  | diffRequest (deviceId : String) (snapshot : Snapshot)
  | download (fm : RemoteFile)
  | skipDownload (fm : RemoteFile)
  | removeLocal (fm : RemoteFile)
  | saveTree
deriving DecidableEq, Repr

/-- `result.differences` of the diff API response. -/
structure RemoteDifferences where
  added : List RemoteFile
  modified : List RemoteFile
  deleted : List RemoteFile
deriving DecidableEq, Repr

/-- Download-loop step of `performSync`: entries with a truthy
`s3_url` and `id` go through `downloadFileFromServer`, the rest are
skipped with a log line. -/
def syncDownloadStep (fetch : RemoteFile → Option FsFile) (now : String) (nowMs : Nat)
    (acc : List SyncAction × WatcherState × Fs) (fm : RemoteFile) :
    List SyncAction × WatcherState × Fs :=
  if jsTruthyStr fm.s3_url && jsTruthyNat fm.id then
    let r := downloadFileFromServer acc.2.2 (fetch fm) acc.2.1 fm now nowMs
    (acc.1 ++ [SyncAction.download fm], r.1, r.2)
  else (acc.1 ++ [SyncAction.skipDownload fm], acc.2.1, acc.2.2)

/-- Deletion-loop step of `performSync`. -/
def syncDeleteStep (acc : List SyncAction × WatcherState × Fs) (fm : RemoteFile) :
    List SyncAction × WatcherState × Fs :=
  let r := handleServerDeletion acc.2.2 acc.2.1 fm
  (acc.1 ++ [SyncAction.removeLocal fm], r.1, r.2)

/-- `performSync()` from `client/lib/sync.js`: snapshot the local tree
and request a server-perspective diff (`resp` is the response, `none`
when it is missing or lacks `differences`); when any difference list is
non-empty, download `added ++ modified` entries, apply deletions, and
persist the tree.  The function consults no busy flag: its behaviour
is the same whatever else is in flight. -/
def performSync (deviceId now : String) (nowMs : Nat)
    (resp : Option RemoteDifferences) (fetch : RemoteFile → Option FsFile)
    (fs : Fs) (s : WatcherState) : List SyncAction × WatcherState × Fs :=
  let req := SyncAction.diffRequest deviceId (s.tree.toJSON now)
  match resp with
  | none => ([req], s, fs)
  | some d =>
    if d.added.isEmpty && d.modified.isEmpty && d.deleted.isEmpty then ([req], s, fs)
    else
      let step1 := (d.added ++ d.modified).foldl (syncDownloadStep fetch now nowMs) ([], s, fs)
      let step2 := d.deleted.foldl syncDeleteStep step1
      (req :: (step2.1 ++ [SyncAction.saveTree]), step2.2.1, step2.2.2)

/-- Insertion of a list of `(path, metadata)` entries into a tree by
successive `addOrUpdateFile` calls (used to state the order-dependence
claims about tree construction). -/
def insertAll (t : MerkleTree) (entries : List (String × Metadata)) (now : String) :
    MerkleTree :=
  entries.foldl (fun acc e => acc.addOrUpdateFile e.1 e.2 now) t

/-- Differences computed by the `POST /merkle/diff` route
(`routes/merkle.js`, before URL enrichment, which only decorates
`added`/`modified` entries and passes `deleted` through): when a stored
tree exists both sides go through the server tree class, otherwise the
route returns empty differences without consulting the diff engine. -/
def diffRoute (stored : Option Snapshot) (localTreeData : Snapshot) : Differences :=
  match stored with
  | some treeData =>
    ServerTree.getDifferences (ServerTree.fromJSON treeData.files)
      (ServerTree.fromJSON localTreeData.files)
  | none => { added := [], modified := [], deleted := [] }

/-- Snapshot entries as the wire schema allows them (`Joi.string()`
rejects empty strings): a nonempty `timestamp` and an `s3_url` that is
either `null` or nonempty.  On such entries the client's `fromJSON`
normalisation (`x || null`, `x || now`) is the identity. -/
def wellFormedEntry (f : FileData) : Prop :=
  f.timestamp ≠ "" ∧ f.s3_url ≠ some ""

instance (f : FileData) : Decidable (wellFormedEntry f) :=
  inferInstanceAs (Decidable (f.timestamp ≠ "" ∧ f.s3_url ≠ some ""))

/- ------------------------------------------------------------------
Helper lemmas about the JavaScript `Map` embedding.
------------------------------------------------------------------ -/

theorem mapGet_path {l : List FileData} {p : String} {f : FileData}
    (h : mapGet l p = some f) : f.file_path = p := by
  induction l with
  | nil => simp [mapGet] at h
  | cons e rest ih =>
    by_cases he : e.file_path = p
    · simp [mapGet, he] at h
      rw [← h, he]
    · simp [mapGet, he] at h
      exact ih h

theorem mapGet_eq_none {l : List FileData} {p : String} :
    mapGet l p = none ↔ p ∉ keysOf l := by
  induction l with
  | nil => simp [mapGet, keysOf]
  | cons e rest ih =>
    by_cases he : e.file_path = p
    · simp [mapGet, he, keysOf]
    · simp [mapGet, he, keysOf] at ih ⊢
      exact ⟨fun h => ⟨fun hc => he hc.symm, (ih.1 h)⟩, fun h => ih.2 h.2⟩

theorem mem_keysOf_of_mem {l : List FileData} {f : FileData} (h : f ∈ l) :
    f.file_path ∈ keysOf l := by
  simp only [keysOf, List.mem_map]
  exact ⟨f, h, rfl⟩

theorem mapGet_mem_self {l : List FileData} {f : FileData}
    (hnd : (keysOf l).Nodup) (h : f ∈ l) : mapGet l f.file_path = some f := by
  induction l with
  | nil => simp at h
  | cons e rest ih =>
    simp only [keysOf, List.map_cons, List.nodup_cons] at hnd
    rcases List.mem_cons.1 h with rfl | hmem
    · simp [mapGet]
    · have hne : e.file_path ≠ f.file_path := by
        intro hc
        exact hnd.1 (hc ▸ mem_keysOf_of_mem hmem)
      simp [mapGet, hne]
      exact ih hnd.2 hmem

theorem mapSet_of_not_mem {l : List FileData} {d : FileData}
    (h : d.file_path ∉ keysOf l) : mapSet l d = l ++ [d] := by
  induction l with
  | nil => simp [mapSet]
  | cons e rest ih =>
    simp only [keysOf, List.map_cons, List.mem_cons] at h
    push_neg at h
    have hne : ¬ e.file_path = d.file_path := fun hc => h.1 hc.symm
    simp only [mapSet, if_neg hne, List.cons_append, List.cons.injEq, true_and]
    exact ih h.2

theorem keysOf_append (l1 l2 : List FileData) :
    keysOf (l1 ++ l2) = keysOf l1 ++ keysOf l2 := by
  simp [keysOf]

theorem keysOf_mapSet (l : List FileData) (d : FileData) :
    keysOf (mapSet l d) = if d.file_path ∈ keysOf l then keysOf l
      else keysOf l ++ [d.file_path] := by
  induction l with
  | nil => simp [mapSet, keysOf]
  | cons e rest ih =>
    by_cases he : e.file_path = d.file_path
    · simp [mapSet, he, keysOf]
    · have hde : ¬ d.file_path = e.file_path := fun hc => he hc.symm
      simp only [mapSet, if_neg he, keysOf, List.map_cons] at ih ⊢
      rw [ih]
      by_cases hd : d.file_path ∈ List.map FileData.file_path rest
      · simp [hd, hde]
      · simp [hd, hde]

theorem nodup_keysOf_mapSet {l : List FileData} (d : FileData)
    (h : (keysOf l).Nodup) : (keysOf (mapSet l d)).Nodup := by
  rw [keysOf_mapSet]
  by_cases hd : d.file_path ∈ keysOf l
  · simpa [hd]
  · simp only [if_neg hd]
    exact List.Nodup.append h (List.nodup_singleton _)
      (by simpa [List.disjoint_singleton] using hd)

theorem foldl_mapSet_append :
    ∀ (l acc : List FileData), (keysOf acc ++ keysOf l).Nodup →
      List.foldl mapSet acc l = acc ++ l := by
  intro l
  induction l with
  | nil => intro acc _; simp
  | cons f rest ih =>
    intro acc h
    have h2 : (keysOf acc ++ (f.file_path :: keysOf rest)).Nodup := by
      simpa [keysOf] using h
    rw [List.append_cons] at h2
    have h3 : (keysOf acc ++ [f.file_path]).Nodup := (List.nodup_append.1 h2).1
    have hf : f.file_path ∉ keysOf acc := by
      intro hc
      exact (List.nodup_append.1 h3).2.2 hc (by simp)
    have hstep : mapSet acc f = acc ++ [f] := mapSet_of_not_mem hf
    simp only [List.foldl_cons, hstep]
    rw [ih (acc ++ [f]) (by rw [keysOf_append] ; simpa [keysOf] using h2)]
    simp

theorem buildMap_eq_self {l : List FileData} (h : (keysOf l).Nodup) :
    buildMap l = l := by
  have := foldl_mapSet_append l [] (by simpa [keysOf])
  simpa [buildMap] using this

theorem nodup_keysOf_foldl_mapSet :
    ∀ (l acc : List FileData), (keysOf acc).Nodup →
      (keysOf (List.foldl mapSet acc l)).Nodup := by
  intro l
  induction l with
  | nil => intro acc h; simpa
  | cons f rest ih =>
    intro acc h
    exact ih (mapSet acc f) (nodup_keysOf_mapSet f h)

theorem nodup_keysOf_buildMap (l : List FileData) :
    (keysOf (buildMap l)).Nodup :=
  nodup_keysOf_foldl_mapSet l [] (by simp [keysOf])

theorem mapGet_mapSet_self (l : List FileData) (d : FileData) :
    mapGet (mapSet l d) d.file_path = some d := by
  induction l with
  | nil => simp [mapSet, mapGet]
  | cons e rest ih =>
    by_cases he : e.file_path = d.file_path
    · simp [mapSet, he, mapGet]
    · simp [mapSet, he, mapGet, ih]

theorem mapGet_mapSet_ne (l : List FileData) (d : FileData) {p : String}
    (h : p ≠ d.file_path) : mapGet (mapSet l d) p = mapGet l p := by
  have hdp : ¬ d.file_path = p := fun hc => h hc.symm
  induction l with
  | nil => simp [mapSet, mapGet, hdp]
  | cons e rest ih =>
    by_cases he : e.file_path = d.file_path
    · have hep : ¬ e.file_path = p := he ▸ hdp
      simp [mapSet, he, mapGet, hdp, hep]
    · by_cases hep : e.file_path = p
      · simp [mapSet, he, mapGet, hep, h]
      · simp [mapSet, he, mapGet, hep, ih]

theorem mapSet_map_hash {l : List FileData} {d old : FileData}
    (hget : mapGet l d.file_path = some old) (hh : d.hash = old.hash) :
    (mapSet l d).map FileData.hash = l.map FileData.hash := by
  induction l with
  | nil => simp [mapGet] at hget
  | cons e rest ih =>
    by_cases he : e.file_path = d.file_path
    · have hget2 : e = old := by simpa [mapGet, he] using hget
      subst hget2
      simp [mapSet, he, hh]
    · simp only [mapGet, if_neg he] at hget
      simp [mapSet, he, ih hget]

theorem mapSet_masked_map {l : List FileData} {d : FileData} {p : String}
    (hd : d.file_path = p) (hmem : p ∈ keysOf l) :
    (mapSet l d).map (fun f => if f.file_path = p then none else some f)
      = l.map (fun f => if f.file_path = p then (none : Option FileData) else some f) := by
  induction l with
  | nil => simp [keysOf] at hmem
  | cons e rest ih =>
    by_cases he : e.file_path = d.file_path
    · simp [mapSet, he, hd, he.trans hd]
    · have hep : ¬ e.file_path = p := fun hc => he (hc.trans hd.symm)
      have hmem2 : p ∈ keysOf rest := by
        simp only [keysOf, List.map_cons] at hmem
        rcases List.mem_cons.1 hmem with hc | hc
        · exact absurd hc.symm hep
        · simpa [keysOf] using hc
      simp only [mapSet, if_neg he, List.map_cons]
      rw [ih hmem2]

/- ------------------------------------------------------------------
Helper lemmas about the root-hash computation.
------------------------------------------------------------------ -/

theorem pairUp_map_hashOf : ∀ ns : List MNode,
    (pairUp ns).map MNode.hashOf = hashLevel (ns.map MNode.hashOf)
  | [] => rfl
  | [_] => rfl
  | a :: b :: rest => by
    simp only [pairUp, hashLevel, List.map_cons, MNode.hashOf]
    rw [pairUp_map_hashOf rest]

theorem buildRootAux_hashOf : ∀ (fuel : Nat) (ns : List MNode),
    (buildRootAux fuel ns).map MNode.hashOf = rootHashAux fuel (ns.map MNode.hashOf)
  | fuel, [] => by cases fuel <;> rfl
  | fuel, [_] => by cases fuel <;> rfl
  | 0, _ :: _ :: _ => rfl
  | fuel + 1, a :: b :: rest => by
    simp only [buildRootAux, rootHashAux, List.map_cons]
    rw [buildRootAux_hashOf fuel (pairUp (a :: b :: rest))]
    have := pairUp_map_hashOf (a :: b :: rest)
    simp only [List.map_cons] at this
    rw [this]

theorem getRootHash_eq (t : MerkleTree) :
    t.getRootHash = rootHashOf (t.leaves.map LeafNode.nodeHash) := by
  simp only [MerkleTree.getRootHash, buildRoot, rootHashOf, List.length_map]
  rw [buildRootAux_hashOf]
  congr 1
  simp [List.map_map, Function.comp, MNode.hashOf]

theorem rootHash_congr {t1 t2 : MerkleTree}
    (h : t1.leaves.map LeafNode.nodeHash = t2.leaves.map LeafNode.nodeHash) :
    t1.getRootHash = t2.getRootHash := by
  rw [getRootHash_eq, getRootHash_eq, h]

/- ------------------------------------------------------------------
Helper lemmas about the leaf-node map.
------------------------------------------------------------------ -/

theorem leafGet_path {l : List LeafNode} {p : String} {ln : LeafNode}
    (h : leafGet l p = some ln) : ln.data.file_path = p := by
  induction l with
  | nil => simp [leafGet] at h
  | cons e rest ih =>
    by_cases he : e.data.file_path = p
    · simp [leafGet, he] at h
      rw [← h, he]
    · simp [leafGet, he] at h
      exact ih h

theorem leafGet_eq_none {l : List LeafNode} {p : String} :
    leafGet l p = none ↔ p ∉ leafKeys l := by
  induction l with
  | nil => simp [leafGet, leafKeys]
  | cons e rest ih =>
    by_cases he : e.data.file_path = p
    · simp [leafGet, he, leafKeys]
    · simp [leafGet, he, leafKeys] at ih ⊢
      exact ⟨fun h => ⟨fun hc => he hc.symm, (ih.1 h)⟩, fun h => ih.2 h.2⟩

theorem leafSet_of_not_mem {l : List LeafNode} {ln : LeafNode}
    (h : ln.data.file_path ∉ leafKeys l) : leafSet l ln = l ++ [ln] := by
  induction l with
  | nil => simp [leafSet]
  | cons e rest ih =>
    simp only [leafKeys, List.map_cons, List.mem_cons] at h
    push_neg at h
    have hne : ¬ e.data.file_path = ln.data.file_path := fun hc => h.1 hc.symm
    simp only [leafSet, if_neg hne, List.cons_append, List.cons.injEq, true_and]
    exact ih h.2

theorem leafKeys_append (l1 l2 : List LeafNode) :
    leafKeys (l1 ++ l2) = leafKeys l1 ++ leafKeys l2 := by
  simp [leafKeys]

theorem foldl_leafSet_append :
    ∀ (l acc : List LeafNode), (leafKeys acc ++ leafKeys l).Nodup →
      List.foldl leafSet acc l = acc ++ l := by
  intro l
  induction l with
  | nil => intro acc _; simp
  | cons ln rest ih =>
    intro acc h
    have h2 : (leafKeys acc ++ (ln.data.file_path :: leafKeys rest)).Nodup := by
      simpa [leafKeys] using h
    rw [List.append_cons] at h2
    have h3 : (leafKeys acc ++ [ln.data.file_path]).Nodup := (List.nodup_append.1 h2).1
    have hf : ln.data.file_path ∉ leafKeys acc := by
      intro hc
      exact (List.nodup_append.1 h3).2.2 hc (by simp)
    have hstep : leafSet acc ln = acc ++ [ln] := leafSet_of_not_mem hf
    simp only [List.foldl_cons, hstep]
    rw [ih (acc ++ [ln]) (by rw [leafKeys_append] ; simpa [leafKeys] using h2)]
    simp

theorem leafGet_leafSet_self (l : List LeafNode) (ln : LeafNode) :
    leafGet (leafSet l ln) ln.data.file_path = some ln := by
  induction l with
  | nil => simp [leafSet, leafGet]
  | cons e rest ih =>
    by_cases he : e.data.file_path = ln.data.file_path
    · simp [leafSet, he, leafGet]
    · simp [leafSet, he, leafGet, ih]

theorem leafSet_map_nodeHash {l : List LeafNode} {ln old : LeafNode}
    (hget : leafGet l ln.data.file_path = some old) (hh : ln.nodeHash = old.nodeHash) :
    (leafSet l ln).map LeafNode.nodeHash = l.map LeafNode.nodeHash := by
  induction l with
  | nil => simp [leafGet] at hget
  | cons e rest ih =>
    by_cases he : e.data.file_path = ln.data.file_path
    · have hget2 : e = old := by simpa [leafGet, he] using hget
      subst hget2
      simp [leafSet, he, hh]
    · simp only [leafGet, if_neg he] at hget
      simp [leafSet, he, ih hget]

theorem leafSet_masked_map {l : List LeafNode} {ln : LeafNode} {p : String}
    (hd : ln.data.file_path = p) (hmem : p ∈ leafKeys l) :
    (leafSet l ln).map (fun e => if e.data.file_path = p then none else some e)
      = l.map (fun e => if e.data.file_path = p then (none : Option LeafNode) else some e) := by
  induction l with
  | nil => simp [leafKeys] at hmem
  | cons e rest ih =>
    by_cases he : e.data.file_path = ln.data.file_path
    · simp [leafSet, he, hd, he.trans hd]
    · have hep : ¬ e.data.file_path = p := fun hc => he (hc.trans hd.symm)
      have hmem2 : p ∈ leafKeys rest := by
        simp only [leafKeys, List.map_cons] at hmem
        rcases List.mem_cons.1 hmem with hc | hc
        · exact absurd hc.symm hep
        · simpa [leafKeys] using hc
      simp only [leafSet, if_neg he, List.map_cons]
      rw [ih hmem2]

theorem leafSet_map_data (l : List LeafNode) (ln : LeafNode) :
    (leafSet l ln).map LeafNode.data = mapSet (l.map LeafNode.data) ln.data := by
  induction l with
  | nil => simp [leafSet, mapSet]
  | cons e rest ih =>
    by_cases he : e.data.file_path = ln.data.file_path
    · simp [leafSet, he, mapSet]
    · simp [leafSet, he, mapSet, ih]

theorem foldl_leafSet_map_data :
    ∀ (L acc : List LeafNode),
      (List.foldl leafSet acc L).map LeafNode.data
        = List.foldl mapSet (acc.map LeafNode.data) (L.map LeafNode.data) := by
  intro L
  induction L with
  | nil => intro acc; simp
  | cons ln rest ih =>
    intro acc
    simp only [List.foldl_cons, List.map_cons]
    rw [ih, leafSet_map_data]

/- ------------------------------------------------------------------
Helper lemmas about tree construction.
------------------------------------------------------------------ -/

theorem insertAll_leaves : ∀ (es : List (String × Metadata)) (t : MerkleTree) (now : String),
    (leafKeys t.leaves ++ es.map Prod.fst).Nodup →
    (insertAll t es now).leaves = t.leaves ++ es.map fun e => createFileNode e.1 e.2 now := by
  intro es
  induction es with
  | nil => intro t now _; simp [insertAll]
  | cons e rest ih =>
    intro t now h
    have h2 : ((leafKeys t.leaves ++ [e.1]) ++ rest.map Prod.fst).Nodup := by
      simp only [List.map_cons] at h
      rw [List.append_cons] at h
      exact h
    have hkey : e.1 ∉ leafKeys t.leaves := by
      intro hc
      have h3 : (leafKeys t.leaves ++ [e.1]).Nodup := (List.nodup_append.1 h2).1
      exact (List.nodup_append.1 h3).2.2 hc (by simp)
    have hget : leafGet t.leaves e.1 = none := leafGet_eq_none.2 hkey
    have hpath : (createFileNode e.1 e.2 now).data.file_path = e.1 := rfl
    have hstep : (t.addOrUpdateFile e.1 e.2 now).leaves
        = t.leaves ++ [createFileNode e.1 e.2 now] := by
      simp only [MerkleTree.addOrUpdateFile, hget]
      exact leafSet_of_not_mem (by rw [hpath]; exact hkey)
    have hfold : insertAll t (e :: rest) now
        = insertAll (t.addOrUpdateFile e.1 e.2 now) rest now := by
      simp [insertAll]
    rw [hfold, ih (t.addOrUpdateFile e.1 e.2 now) now (by
      rw [hstep, leafKeys_append]
      simpa [leafKeys, hpath] using h2)]
    simp [hstep]

theorem buildLeaves_eq (files : List FileData) (now : String) :
    buildLeaves files now
      = List.foldl leafSet []
          (files.map fun f => createFileNode f.file_path (fileAsMetadata f) now) := by
  simp [buildLeaves, List.foldl_map]

theorem leafKeys_map_createFileNode (l : List FileData) (now : String) :
    leafKeys (l.map fun f => createFileNode f.file_path (fileAsMetadata f) now)
      = keysOf l := by
  simp only [leafKeys, List.map_map]
  rfl

theorem buildLeaves_of_nodup {files : List FileData} (now : String)
    (h : (keysOf files).Nodup) :
    buildLeaves files now
      = files.map fun f => createFileNode f.file_path (fileAsMetadata f) now := by
  rw [buildLeaves_eq]
  have := foldl_leafSet_append
    (files.map fun f => createFileNode f.file_path (fileAsMetadata f) now) []
    (by simpa [leafKeys_map_createFileNode, leafKeys] using h)
  simpa using this

theorem buildLeaves_map_data (files : List FileData) (now : String) :
    (buildLeaves files now).map LeafNode.data
      = buildMap (files.map fun f => createData f.file_path (fileAsMetadata f) now) := by
  rw [buildLeaves_eq, foldl_leafSet_map_data]
  simp only [List.map_map, List.map_nil, buildMap]
  rfl

theorem map_createFileNode_nodeHash (L : List FileData) (now : String) :
    ((L.map fun f => createFileNode f.file_path (fileAsMetadata f) now).map
        LeafNode.nodeHash)
      = List.replicate L.length Hash.emptyDigest := by
  induction L with
  | nil => rfl
  | cons f rest ih =>
    simp only [List.map_cons, List.length_cons, List.replicate_succ]
    rw [ih]
    rfl

theorem map_createFileNode_pairs_nodeHash (es : List (String × Metadata)) (now : String) :
    ((es.map fun e => createFileNode e.1 e.2 now).map LeafNode.nodeHash)
      = List.replicate es.length Hash.emptyDigest := by
  induction es with
  | nil => rfl
  | cons e rest ih =>
    simp only [List.map_cons, List.length_cons, List.replicate_succ]
    rw [ih]
    rfl

theorem map_nodeHash_replicate {l : List LeafNode}
    (h : ∀ ln ∈ l, ln.nodeHash = Hash.emptyDigest) :
    l.map LeafNode.nodeHash = List.replicate l.length Hash.emptyDigest := by
  induction l with
  | nil => rfl
  | cons ln rest ih =>
    simp only [List.map_cons, List.length_cons, List.replicate_succ]
    rw [h ln (by simp), ih fun x hx => h x (by simp [hx])]

theorem createData_path (f : FileData) (now : String) :
    (createData f.file_path (fileAsMetadata f) now).file_path = f.file_path := rfl

theorem createData_hash (f : FileData) (now : String) :
    (createData f.file_path (fileAsMetadata f) now).hash = f.hash := rfl

theorem keysOf_map_createData (l : List FileData) (now : String) :
    keysOf (l.map fun f => createData f.file_path (fileAsMetadata f) now) = keysOf l := by
  simp only [keysOf, List.map_map]
  rfl

theorem createData_of_wellFormed {f : FileData} (now : String) (h : wellFormedEntry f) :
    createData f.file_path (fileAsMetadata f) now = f := by
  cases f with
  | mk fn fp lu su hsh sz ts mt =>
    rcases h with ⟨ht, hs⟩
    have h1 : jsStrOrNull su = su := by
      cases su with
      | none => rfl
      | some v =>
        have hv : ¬ v = "" := fun hc => hs (by rw [hc])
        simp [jsStrOrNull, hv]
    have h2 : jsStrOr (some ts) now = ts := by
      simp only [wellFormedEntry] at ht
      simp [jsStrOr, ht]
    simp [createData, fileAsMetadata, h1, h2]

theorem map_createData_of_wellFormed {L : List FileData} (now : String)
    (h : ∀ f ∈ L, wellFormedEntry f) :
    L.map (fun f => createData f.file_path (fileAsMetadata f) now) = L := by
  induction L with
  | nil => rfl
  | cons f rest ih =>
    simp only [List.map_cons]
    rw [createData_of_wellFormed now (h f (by simp)),
      ih fun g hg => h g (by simp [hg])]

theorem not_mem_setDel (l : List String) (x : String) : x ∉ setDel l x := by
  simp [setDel, List.mem_filter]

theorem setDel_contains (l : List String) (x : String) :
    (setDel l x).contains x = false := by
  cases hc : (setDel l x).contains x
  · rfl
  · exact absurd (List.mem_of_elem_eq_true hc) (not_mem_setDel l x)

theorem assocGet_assocSet_self {α : Type} (l : List (String × α)) (k : String) (v : α) :
    assocGet (assocSet l k v) k = some v := by
  induction l with
  | nil => simp [assocSet, assocGet]
  | cons e rest ih =>
    obtain ⟨k0, v0⟩ := e
    by_cases he : k0 = k
    · simp [assocSet, he, assocGet]
    · simp [assocSet, he, assocGet, ih]

/- ------------------------------------------------------------------
Claim theorems.
------------------------------------------------------------------ -/

/-- C1: inserting the same set of file entries (distinct paths) into a
fresh tree in any two orders yields the same `getRootHash()`.  This
holds for a degenerate reason: every insertion into a fresh tree takes
the create branch of `addOrUpdateFile`, and `createFileNode` leaves
all store `sha256('empty')` (the constructor computes `this.hash`
before `this.isLeaf` is assigned), so the root depends only on the
number of entries — in particular not on the insertion order. -/
theorem rootHash_insertion_order_independent (es1 es2 : List (String × Metadata))
    (now1 now2 : String) (hnd : (es1.map Prod.fst).Nodup) (hperm : es1.Perm es2) :
    (insertAll ⟨[]⟩ es1 now1).getRootHash = (insertAll ⟨[]⟩ es2 now2).getRootHash := by
  have hnd2 : (es2.map Prod.fst).Nodup := (hperm.map Prod.fst).nodup hnd
  have h1 := insertAll_leaves es1 ⟨[]⟩ now1 (by simpa [leafKeys] using hnd)
  have h2 := insertAll_leaves es2 ⟨[]⟩ now2 (by simpa [leafKeys] using hnd2)
  simp only [MerkleTree.leaves, List.nil_append] at h1 h2
  rw [getRootHash_eq, getRootHash_eq, h1, h2, map_createFileNode_pairs_nodeHash,
    map_createFileNode_pairs_nodeHash, hperm.length_eq]

/-- C1, witness: the same two-entry set inserted in both orders, with
different insertion timestamps. -/
theorem rootHash_insertion_order_independent_witness :
    (([("a", (⟨"a", none, none, "h1", 1, some "t", none⟩ : Metadata)),
       ("b", ⟨"b", none, none, "h2", 1, some "t", none⟩)].map Prod.fst).Nodup)
    ∧ List.Perm
        [("a", (⟨"a", none, none, "h1", 1, some "t", none⟩ : Metadata)),
         ("b", ⟨"b", none, none, "h2", 1, some "t", none⟩)]
        [("b", (⟨"b", none, none, "h2", 1, some "t", none⟩ : Metadata)),
         ("a", ⟨"a", none, none, "h1", 1, some "t", none⟩)]
    ∧ (insertAll ⟨[]⟩
        [("a", ⟨"a", none, none, "h1", 1, some "t", none⟩),
         ("b", ⟨"b", none, none, "h2", 1, some "t", none⟩)] "T1").getRootHash
      = (insertAll ⟨[]⟩
        [("b", ⟨"b", none, none, "h2", 1, some "t", none⟩),
         ("a", ⟨"a", none, none, "h1", 1, some "t", none⟩)] "T2").getRootHash :=
  ⟨by decide, List.Perm.swap _ _ _,
    rootHash_insertion_order_independent _ _ "T1" "T2" (by decide) (List.Perm.swap _ _ _)⟩

/-- C8: diffing any tree against itself yields empty `added`,
`modified` and `deleted` lists. -/
theorem getDifferences_self (t : MerkleTree) :
    t.getDifferences t = ⟨[], [], []⟩ := by
  have hnd := nodup_keysOf_buildMap t.getAllFiles
  simp only [MerkleTree.getDifferences, Differences.mk.injEq]
  refine ⟨?_, ?_, ?_⟩ <;> rw [List.filter_eq_nil_iff] <;> intro f hf <;>
    have hg := mapGet_mem_self hnd hf
  · simp [hg]
  · simp [hg]
  · simp [hg]

/-- C5: for trees with duplicate-free path sets (the invariant of every
tree the code builds, since leaves live in a path-keyed `Map`),
`getDifferences` returns exactly the entries of `mine` whose path is
absent from `theirs` in `added`, the entries of `mine` present in both
trees whose hash or timestamp differs in `modified`, and the entries of
`theirs` whose path is absent from `mine` in `deleted`; the three lists
are pairwise disjoint. -/
theorem getDifferences_characterisation (mine theirs : MerkleTree)
    (hm : (keysOf mine.getAllFiles).Nodup) (ht : (keysOf theirs.getAllFiles).Nodup) :
    mine.getDifferences theirs =
      ({ added := mine.getAllFiles.filter fun f => (mapGet theirs.getAllFiles f.file_path).isNone
         modified := mine.getAllFiles.filter fun f =>
           match mapGet theirs.getAllFiles f.file_path with
           | some g => f.hash != g.hash || f.timestamp != g.timestamp
           | none => false
         deleted := theirs.getAllFiles.filter fun f =>
           (mapGet mine.getAllFiles f.file_path).isNone }
        : Differences)
    ∧ ((mine.getDifferences theirs).added.filter
        fun f => decide (f ∈ (mine.getDifferences theirs).modified)) = []
    ∧ ((mine.getDifferences theirs).added.filter
        fun f => decide (f ∈ (mine.getDifferences theirs).deleted)) = []
    ∧ ((mine.getDifferences theirs).modified.filter
        fun f => decide (f ∈ (mine.getDifferences theirs).deleted)) = [] := by
  have hchar : mine.getDifferences theirs =
      ({ added := mine.getAllFiles.filter fun f => (mapGet theirs.getAllFiles f.file_path).isNone
         modified := mine.getAllFiles.filter fun f =>
           match mapGet theirs.getAllFiles f.file_path with
           | some g => f.hash != g.hash || f.timestamp != g.timestamp
           | none => false
         deleted := theirs.getAllFiles.filter fun f =>
           (mapGet mine.getAllFiles f.file_path).isNone }
        : Differences) := by
    simp only [MerkleTree.getDifferences]
    rw [buildMap_eq_self hm, buildMap_eq_self ht]
  refine ⟨hchar, ?_, ?_, ?_⟩ <;> rw [hchar] <;> rw [List.filter_eq_nil_iff] <;>
    intro f hf <;> simp only [decide_eq_true_eq] <;> intro hf2 <;>
    rcases List.mem_filter.1 hf with ⟨hfmem, hp1⟩ <;>
    rcases List.mem_filter.1 hf2 with ⟨hfmem2, hp2⟩
  · rw [Option.isNone_iff_eq_none] at hp1
    rw [hp1] at hp2
    simp at hp2
  · rw [Option.isNone_iff_eq_none] at hp1
    rw [mapGet_mem_self ht hfmem2] at hp1
    simp at hp1
  · rw [Option.isNone_iff_eq_none] at hp2
    rw [mapGet_mem_self hm hfmem] at hp2
    simp at hp2

/-- C5, witness at two small concrete trees: `mine` holds paths `a`
(absent from `theirs`) and `b` (present in both with a different
hash), `theirs` holds only `b`. -/
theorem getDifferences_characterisation_witness :
    ((keysOf (⟨[⟨⟨"a", "a", none, none, "h1", 1, "t1", none⟩, Hash.emptyDigest⟩,
                ⟨⟨"b", "b", none, none, "h2", 1, "t2", none⟩, Hash.emptyDigest⟩]⟩
        : MerkleTree).getAllFiles).Nodup)
    ∧ ((keysOf (⟨[⟨⟨"b", "b", none, none, "hX", 1, "t2", none⟩, Hash.emptyDigest⟩]⟩
        : MerkleTree).getAllFiles).Nodup)
    ∧ ((⟨[⟨⟨"a", "a", none, none, "h1", 1, "t1", none⟩, Hash.emptyDigest⟩,
          ⟨⟨"b", "b", none, none, "h2", 1, "t2", none⟩, Hash.emptyDigest⟩]⟩
            : MerkleTree).getDifferences
          ⟨[⟨⟨"b", "b", none, none, "hX", 1, "t2", none⟩, Hash.emptyDigest⟩]⟩ =
        ({ added := (⟨[⟨⟨"a", "a", none, none, "h1", 1, "t1", none⟩, Hash.emptyDigest⟩,
                       ⟨⟨"b", "b", none, none, "h2", 1, "t2", none⟩, Hash.emptyDigest⟩]⟩
              : MerkleTree).getAllFiles.filter
              fun f => (mapGet (⟨[⟨⟨"b", "b", none, none, "hX", 1, "t2", none⟩,
                  Hash.emptyDigest⟩]⟩ : MerkleTree).getAllFiles f.file_path).isNone
           modified := (⟨[⟨⟨"a", "a", none, none, "h1", 1, "t1", none⟩, Hash.emptyDigest⟩,
                          ⟨⟨"b", "b", none, none, "h2", 1, "t2", none⟩, Hash.emptyDigest⟩]⟩
              : MerkleTree).getAllFiles.filter
              fun f =>
                match mapGet (⟨[⟨⟨"b", "b", none, none, "hX", 1, "t2", none⟩,
                    Hash.emptyDigest⟩]⟩ : MerkleTree).getAllFiles f.file_path with
                | some g => f.hash != g.hash || f.timestamp != g.timestamp
                | none => false
           deleted := (⟨[⟨⟨"b", "b", none, none, "hX", 1, "t2", none⟩, Hash.emptyDigest⟩]⟩
               : MerkleTree).getAllFiles.filter
              fun f => (mapGet (⟨[⟨⟨"a", "a", none, none, "h1", 1, "t1", none⟩,
                  Hash.emptyDigest⟩,
                  ⟨⟨"b", "b", none, none, "h2", 1, "t2", none⟩, Hash.emptyDigest⟩]⟩
                    : MerkleTree).getAllFiles f.file_path).isNone }
          : Differences)
      ∧ ((((⟨[⟨⟨"a", "a", none, none, "h1", 1, "t1", none⟩, Hash.emptyDigest⟩,
              ⟨⟨"b", "b", none, none, "h2", 1, "t2", none⟩, Hash.emptyDigest⟩]⟩
                : MerkleTree).getDifferences
            ⟨[⟨⟨"b", "b", none, none, "hX", 1, "t2", none⟩, Hash.emptyDigest⟩]⟩).added.filter
          (fun f => decide (f ∈ ((⟨[⟨⟨"a", "a", none, none, "h1", 1, "t1", none⟩,
              Hash.emptyDigest⟩,
              ⟨⟨"b", "b", none, none, "h2", 1, "t2", none⟩, Hash.emptyDigest⟩]⟩
                : MerkleTree).getDifferences
                ⟨[⟨⟨"b", "b", none, none, "hX", 1, "t2", none⟩,
                  Hash.emptyDigest⟩]⟩).modified))) = [])
      ∧ ((((⟨[⟨⟨"a", "a", none, none, "h1", 1, "t1", none⟩, Hash.emptyDigest⟩,
              ⟨⟨"b", "b", none, none, "h2", 1, "t2", none⟩, Hash.emptyDigest⟩]⟩
                : MerkleTree).getDifferences
            ⟨[⟨⟨"b", "b", none, none, "hX", 1, "t2", none⟩, Hash.emptyDigest⟩]⟩).added.filter
          (fun f => decide (f ∈ ((⟨[⟨⟨"a", "a", none, none, "h1", 1, "t1", none⟩,
              Hash.emptyDigest⟩,
              ⟨⟨"b", "b", none, none, "h2", 1, "t2", none⟩, Hash.emptyDigest⟩]⟩
                : MerkleTree).getDifferences
                ⟨[⟨⟨"b", "b", none, none, "hX", 1, "t2", none⟩,
                  Hash.emptyDigest⟩]⟩).deleted))) = [])
      ∧ ((((⟨[⟨⟨"a", "a", none, none, "h1", 1, "t1", none⟩, Hash.emptyDigest⟩,
              ⟨⟨"b", "b", none, none, "h2", 1, "t2", none⟩, Hash.emptyDigest⟩]⟩
                : MerkleTree).getDifferences
            ⟨[⟨⟨"b", "b", none, none, "hX", 1, "t2", none⟩,
              Hash.emptyDigest⟩]⟩).modified.filter
          (fun f => decide (f ∈ ((⟨[⟨⟨"a", "a", none, none, "h1", 1, "t1", none⟩,
              Hash.emptyDigest⟩,
              ⟨⟨"b", "b", none, none, "h2", 1, "t2", none⟩, Hash.emptyDigest⟩]⟩
                : MerkleTree).getDifferences
                ⟨[⟨⟨"b", "b", none, none, "hX", 1, "t2", none⟩,
                  Hash.emptyDigest⟩]⟩).deleted))) = [])) :=
  ⟨by decide, by decide,
    getDifferences_characterisation _ _ (by decide) (by decide)⟩

/-- C7, counterexample: the `toJSON`/`fromJSON` round-trip does NOT
preserve the root hash in general.  `fromJSON` rebuilds every leaf via
`createFileNode`, whose stored hash is `sha256('empty')` (the
constructor computes `this.hash` before `this.isLeaf`), while a tree
that has been through `updateS3Url` carries a recalculated leaf whose
stored hash is its content hash; here the root changes from the content
hash `h1` back to `sha256('empty')`. -/
theorem fromJSON_toJSON_changes_rootHash :
    (MerkleTree.fromJSON
        ((((⟨[]⟩ : MerkleTree).addOrUpdateFile "a"
              ⟨"a", none, none, "h1", 1, some "t", none⟩ "T1").updateS3Url
            "a" "u" "T2").1.toJSON "T3") "T4").getRootHash
      ≠ (((⟨[]⟩ : MerkleTree).addOrUpdateFile "a"
              ⟨"a", none, none, "h1", 1, some "t", none⟩ "T1").updateS3Url
            "a" "u" "T2").1.getRootHash := by
  decide

/-- C7, amended: the round-trip preserves the root hash exactly for
trees all of whose leaves still store the constructor's
`sha256('empty')` hash (every tree built only by fresh inserts or
itself produced by `fromJSON`) with duplicate-free paths; in general
`fromJSON` resets every rebuilt leaf's stored hash to
`sha256('empty')`, so a tree containing any recalculated leaf (after
an update or `updateS3Url`) can change its root hash under the
round-trip. -/
theorem fromJSON_toJSON_rootHash (t : MerkleTree) (n1 n2 : String)
    (hnd : (keysOf t.getAllFiles).Nodup)
    (hfresh : ∀ ln ∈ t.leaves, ln.nodeHash = Hash.emptyDigest) :
    (MerkleTree.fromJSON (t.toJSON n1) n2).getRootHash = t.getRootHash := by
  have hleaves : (MerkleTree.fromJSON (t.toJSON n1) n2).leaves
      = t.getAllFiles.map fun f => createFileNode f.file_path (fileAsMetadata f) n2 := by
    simp only [MerkleTree.fromJSON, MerkleTree.toJSON]
    exact buildLeaves_of_nodup n2 hnd
  rw [getRootHash_eq, getRootHash_eq, hleaves, map_createFileNode_nodeHash,
    map_nodeHash_replicate hfresh]
  congr 1
  simp [MerkleTree.getAllFiles]

/-- C7, witness at a concrete freshly built two-leaf tree. -/
theorem fromJSON_toJSON_rootHash_witness :
    ((keysOf (⟨[⟨⟨"a", "a", none, some "u", "h1", 1, "t1", none⟩, Hash.emptyDigest⟩,
                ⟨⟨"b", "b", none, none, "h2", 2, "t2", none⟩, Hash.emptyDigest⟩]⟩
        : MerkleTree).getAllFiles).Nodup)
    ∧ (∀ ln ∈ (⟨[⟨⟨"a", "a", none, some "u", "h1", 1, "t1", none⟩, Hash.emptyDigest⟩,
                 ⟨⟨"b", "b", none, none, "h2", 2, "t2", none⟩, Hash.emptyDigest⟩]⟩
          : MerkleTree).leaves, ln.nodeHash = Hash.emptyDigest)
    ∧ (MerkleTree.fromJSON
        ((⟨[⟨⟨"a", "a", none, some "u", "h1", 1, "t1", none⟩, Hash.emptyDigest⟩,
            ⟨⟨"b", "b", none, none, "h2", 2, "t2", none⟩, Hash.emptyDigest⟩]⟩
              : MerkleTree).toJSON "T1") "T2").getRootHash
      = (⟨[⟨⟨"a", "a", none, some "u", "h1", 1, "t1", none⟩, Hash.emptyDigest⟩,
           ⟨⟨"b", "b", none, none, "h2", 2, "t2", none⟩, Hash.emptyDigest⟩]⟩
          : MerkleTree).getRootHash :=
  ⟨by decide, by decide, fromJSON_toJSON_rootHash _ "T1" "T2" (by decide) (by decide)⟩

/-- C4, counterexample: when no server tree is stored, the `/diff`
route does NOT behave like the diff engine applied to an empty `mine`
tree: for a one-file snapshot the engine reports that file as
`deleted`, while the route returns empty differences. -/
theorem diffRoute_missing_tree_not_engine :
    diffRoute none ⟨none, "t0", [⟨"a", "a", none, none, "h1", 1, "t1", none⟩]⟩
      ≠ ServerTree.getDifferences (ServerTree.fromJSON [])
          (ServerTree.fromJSON [⟨"a", "a", none, none, "h1", 1, "t1", none⟩]) := by
  decide

/-- C4, amended: when no server tree is stored, the route
unconditionally returns empty `added`/`modified`/`deleted` without
invoking the diff engine; this coincides with the diff engine run on an
empty `mine` tree exactly when the caller's snapshot holds no files. -/
theorem diffRoute_missing_tree (snap : Snapshot) :
    diffRoute none snap = ⟨[], [], []⟩
    ∧ (ServerTree.getDifferences (ServerTree.fromJSON []) (ServerTree.fromJSON snap.files)
        = ⟨[], [], []⟩ ↔ buildMap snap.files = []) := by
  refine ⟨rfl, ?_⟩
  have hd : ServerTree.getDifferences (ServerTree.fromJSON []) (ServerTree.fromJSON snap.files)
      = ⟨[], [], buildMap snap.files⟩ := by
    simp only [ServerTree.getDifferences, ServerTree.fromJSON, ServerTree.getAllFiles]
    rw [buildMap_eq_self (nodup_keysOf_buildMap snap.files)]
    simp [buildMap, mapGet]
  rw [hd]
  simp [Differences.mk.injEq]

/-- C9: the client-side and server-side `getDifferences`
implementations agree on trees built from the same two entry lists,
whenever the entries are as the wire schema delivers them (nonempty
timestamps, no empty-string blob URL), so that the client's
`fromJSON` normalisation is the identity. -/
theorem diff_implementations_agree (L1 L2 : List FileData)
    (rh1 rh2 : Option Hash) (ts1 ts2 n1 n2 : String)
    (h1 : ∀ f ∈ L1, wellFormedEntry f) (h2 : ∀ f ∈ L2, wellFormedEntry f) :
    ServerTree.getDifferences (ServerTree.fromJSON L1) (ServerTree.fromJSON L2)
      = MerkleTree.getDifferences (MerkleTree.fromJSON ⟨rh1, ts1, L1⟩ n1)
          (MerkleTree.fromJSON ⟨rh2, ts2, L2⟩ n2) := by
  have hb1 : (buildLeaves L1 n1).map LeafNode.data = buildMap L1 := by
    rw [buildLeaves_map_data, map_createData_of_wellFormed n1 h1]
  have hb2 : (buildLeaves L2 n2).map LeafNode.data = buildMap L2 := by
    rw [buildLeaves_map_data, map_createData_of_wellFormed n2 h2]
  simp only [ServerTree.getDifferences, MerkleTree.getDifferences, ServerTree.fromJSON,
    MerkleTree.fromJSON, ServerTree.getAllFiles, MerkleTree.getAllFiles]
  rw [hb1, hb2, buildMap_eq_self (nodup_keysOf_buildMap L1),
    buildMap_eq_self (nodup_keysOf_buildMap L2)]

/-- C9, witness at two concrete one-entry lists with different hashes
for the same path. -/
theorem diff_implementations_agree_witness :
    (∀ f ∈ [(⟨"a", "a", none, some "u", "h1", 1, "t1", none⟩ : FileData)], wellFormedEntry f)
    ∧ (∀ f ∈ [(⟨"a", "a", none, none, "h2", 1, "t2", none⟩ : FileData)], wellFormedEntry f)
    ∧ ServerTree.getDifferences
        (ServerTree.fromJSON [⟨"a", "a", none, some "u", "h1", 1, "t1", none⟩])
        (ServerTree.fromJSON [⟨"a", "a", none, none, "h2", 1, "t2", none⟩])
      = MerkleTree.getDifferences
          (MerkleTree.fromJSON ⟨none, "s1", [⟨"a", "a", none, some "u", "h1", 1, "t1", none⟩]⟩ "T1")
          (MerkleTree.fromJSON ⟨none, "s2", [⟨"a", "a", none, none, "h2", 1, "t2", none⟩]⟩ "T2") :=
  ⟨by decide, by decide,
    diff_implementations_agree _ _ none none "s1" "s2" "T1" "T2" (by decide) (by decide)⟩

/-- C10, counterexample: `updateS3Url` does NOT leave the root hash
unchanged in general.  Its `recalculateHash()` call turns the target
leaf's stored hash from the constructor's `sha256('empty')` into the
content hash, and the root of this freshly inserted single-leaf tree
changes accordingly. -/
theorem updateS3Url_changes_rootHash :
    (((⟨[]⟩ : MerkleTree).addOrUpdateFile "a"
          ⟨"a", none, none, "h1", 1, some "t", none⟩ "T1").updateS3Url
        "a" "u" "T2").1.getRootHash
      ≠ ((⟨[]⟩ : MerkleTree).addOrUpdateFile "a"
          ⟨"a", none, none, "h1", 1, some "t", none⟩ "T1").getRootHash := by
  decide

/-- C10, amended: when the path is present, `updateS3Url` succeeds and
changes only the addressed leaf: its `s3_url` and `timestamp` data
fields, and its stored node hash, which `recalculateHash()` sets to the
(untouched) content hash.  Every other leaf is unchanged, in place.
The root hash is unchanged precisely in the case the claim implicitly
assumed — when the leaf's stored hash already equals its content hash
(it has been through the update branch or a previous `updateS3Url`);
for a freshly created leaf the stored `sha256('empty')` hash is
replaced and the root hash generally changes (see the
counterexample). -/
theorem updateS3Url_frame (t : MerkleTree) (p url now : String) (old : LeafNode)
    (h : leafGet t.leaves p = some old) :
    (t.updateS3Url p url now).2 = true
    ∧ leafGet (t.updateS3Url p url now).1.leaves p
        = some ⟨{ old.data with s3_url := some url, timestamp := now },
            Hash.content old.data.hash⟩
    ∧ ((t.updateS3Url p url now).1.leaves.map
          (fun ln => if ln.data.file_path = p then none else some ln)
        = t.leaves.map fun ln => if ln.data.file_path = p then none else some ln)
    ∧ (old.nodeHash = Hash.content old.data.hash →
        (t.updateS3Url p url now).1.getRootHash = t.getRootHash) := by
  have hpath : old.data.file_path = p := leafGet_path h
  have hkey : ((⟨{ old.data with s3_url := some url, timestamp := now },
      Hash.content old.data.hash⟩ : LeafNode)).data.file_path = p := hpath
  have hmem : p ∈ leafKeys t.leaves := by
    by_contra hc
    rw [leafGet_eq_none.2 hc] at h
    exact Option.noConfusion h
  simp only [MerkleTree.updateS3Url, h]
  refine ⟨trivial, ?_, ?_, ?_⟩
  · rw [show p = ((⟨{ old.data with s3_url := some url, timestamp := now },
        Hash.content old.data.hash⟩ : LeafNode)).data.file_path from hkey.symm]
    exact leafGet_leafSet_self _ _
  · exact leafSet_masked_map hkey hmem
  · intro hE
    apply rootHash_congr
    exact @leafSet_map_nodeHash t.leaves
      ⟨{ old.data with s3_url := some url, timestamp := now }, Hash.content old.data.hash⟩
      old
      (by rw [show ((⟨{ old.data with s3_url := some url, timestamp := now },
            Hash.content old.data.hash⟩ : LeafNode)).data.file_path = p from hkey]
          exact h)
      hE.symm

/-- C10, witness at a concrete two-leaf tree whose leaf `a` has already
been recalculated (its stored hash equals its content hash), so the
root hash stays unchanged. -/
theorem updateS3Url_frame_witness :
    (leafGet (⟨[⟨⟨"a", "a", none, none, "h1", 1, "t1", none⟩, Hash.content "h1"⟩,
                ⟨⟨"b", "b", none, none, "h2", 2, "t2", none⟩, Hash.emptyDigest⟩]⟩
        : MerkleTree).leaves "a"
      = some ⟨⟨"a", "a", none, none, "h1", 1, "t1", none⟩, Hash.content "h1"⟩)
    ∧ (((⟨[⟨⟨"a", "a", none, none, "h1", 1, "t1", none⟩, Hash.content "h1"⟩,
           ⟨⟨"b", "b", none, none, "h2", 2, "t2", none⟩, Hash.emptyDigest⟩]⟩
            : MerkleTree).updateS3Url "a" "https://blob/a" "T").2 = true
      ∧ leafGet ((⟨[⟨⟨"a", "a", none, none, "h1", 1, "t1", none⟩, Hash.content "h1"⟩,
            ⟨⟨"b", "b", none, none, "h2", 2, "t2", none⟩, Hash.emptyDigest⟩]⟩
             : MerkleTree).updateS3Url "a" "https://blob/a" "T").1.leaves "a"
        = some ⟨{ (⟨"a", "a", none, none, "h1", 1, "t1", none⟩ : FileData) with
              s3_url := some "https://blob/a", timestamp := "T" },
            Hash.content (⟨"a", "a", none, none, "h1", 1, "t1", none⟩ : FileData).hash⟩
      ∧ (((⟨[⟨⟨"a", "a", none, none, "h1", 1, "t1", none⟩, Hash.content "h1"⟩,
             ⟨⟨"b", "b", none, none, "h2", 2, "t2", none⟩, Hash.emptyDigest⟩]⟩
              : MerkleTree).updateS3Url "a" "https://blob/a" "T").1.leaves.map
            (fun ln => if ln.data.file_path = "a" then none else some ln)
          = (⟨[⟨⟨"a", "a", none, none, "h1", 1, "t1", none⟩, Hash.content "h1"⟩,
               ⟨⟨"b", "b", none, none, "h2", 2, "t2", none⟩, Hash.emptyDigest⟩]⟩
              : MerkleTree).leaves.map
            fun ln => if ln.data.file_path = "a" then none else some ln)
      ∧ ((⟨⟨"a", "a", none, none, "h1", 1, "t1", none⟩, Hash.content "h1"⟩
            : LeafNode).nodeHash
          = Hash.content (⟨⟨"a", "a", none, none, "h1", 1, "t1", none⟩,
              Hash.content "h1"⟩ : LeafNode).data.hash →
        ((⟨[⟨⟨"a", "a", none, none, "h1", 1, "t1", none⟩, Hash.content "h1"⟩,
            ⟨⟨"b", "b", none, none, "h2", 2, "t2", none⟩, Hash.emptyDigest⟩]⟩
              : MerkleTree).updateS3Url "a" "https://blob/a" "T").1.getRootHash
          = (⟨[⟨⟨"a", "a", none, none, "h1", 1, "t1", none⟩, Hash.content "h1"⟩,
               ⟨⟨"b", "b", none, none, "h2", 2, "t2", none⟩, Hash.emptyDigest⟩]⟩
              : MerkleTree).getRootHash)) :=
  ⟨by decide, updateS3Url_frame _ "a" "https://blob/a" "T"
    ⟨⟨"a", "a", none, none, "h1", 1, "t1", none⟩, Hash.content "h1"⟩ (by decide)⟩

/-- C2: after `markDownloadComplete(P, H)` and while the record is
live, a watched `add`/`change` event for a non-ignored path `P` whose
freshly computed content hash equals `H` is discarded by
`handleFileChange` (the whole watcher state, in particular the upload
queue and the tree, is unchanged), while an event whose computed hash
`H2` differs from `H` is queued for upload with hash `H2` and upserts
the tree. -/
theorem echo_suppression (fs : Fs) (s : WatcherState) (P H H2 now : String)
    (sz : Nat) (ms1 ms2 : Nat) (ev : FsEvent)
    (hig : shouldIgnoreFile P = false)
    (hev : ev = FsEvent.add ∨ ev = FsEvent.change) :
    (calculateFileHash fs P = some H →
      handleFileChange fs (markDownloadComplete s P (some H) ms1) P ev now ms2
        = markDownloadComplete s P (some H) ms1)
    ∧ (fs P = some ⟨H2, sz⟩ → H2 ≠ H →
      assocGet (handleFileChange fs (markDownloadComplete s P (some H) ms1)
          P ev now ms2).uploadQueue P
        = some ⟨P, P, ms2, some H2⟩
      ∧ (handleFileChange fs (markDownloadComplete s P (some H) ms1) P ev now ms2).tree
        = (markDownloadComplete s P (some H) ms1).tree.addOrUpdateFile P
            ⟨basename P, some P, none, H2, sz, some now, some (getMimeType P)⟩ now) := by
  have hcont : ((markDownloadComplete s P (some H) ms1).downloadingFiles).contains P
      = false := setDel_contains _ _
  have hmem : P ∉ (markDownloadComplete s P (some H) ms1).downloadingFiles :=
    not_mem_setDel _ _
  have hrec : assocGet (markDownloadComplete s P (some H) ms1).recentlyDownloaded P
      = some ⟨some H, ms1⟩ := assocGet_assocSet_self _ _ _
  have hune : ¬ ev = FsEvent.unlink := by rcases hev with rfl | rfl <;> simp
  constructor
  · intro hH
    simp [handleFileChange, hig, hcont, hune, hrec, hH]
  · intro hfs hne
    have hch : calculateFileHash fs P = some H2 := by
      simp [calculateFileHash, hfs]
    constructor
    · simp [handleFileChange, hig, hcont, hmem, hune, hrec, hch, hne, hfs, queueUpload,
        assocGet_assocSet_self]
    · simp [handleFileChange, hig, hcont, hmem, hune, hrec, hch, hne, hfs, queueUpload]

/-- C2, witness: a concrete state where `notes.txt` was just recorded
as downloaded with hash `hh`; a matching `change` event is suppressed,
and a differing one (hash `zz`) is queued. -/
theorem echo_suppression_witness :
    shouldIgnoreFile "notes.txt" = false
    ∧ (FsEvent.change = FsEvent.add ∨ FsEvent.change = FsEvent.change)
    ∧ ((calculateFileHash (fun q => if q = "notes.txt" then some (⟨"zz", 3⟩ : FsFile) else none)
          "notes.txt" = some "hh" →
        handleFileChange (fun q => if q = "notes.txt" then some (⟨"zz", 3⟩ : FsFile) else none)
            (markDownloadComplete ⟨[], [], [], ⟨[]⟩⟩ "notes.txt" (some "hh") 4)
            "notes.txt" FsEvent.change "T" 9
          = markDownloadComplete ⟨[], [], [], ⟨[]⟩⟩ "notes.txt" (some "hh") 4)
      ∧ ((fun q => if q = "notes.txt" then some (⟨"zz", 3⟩ : FsFile) else none) "notes.txt"
            = some ⟨"zz", 3⟩ → "zz" ≠ "hh" →
        assocGet (handleFileChange
            (fun q => if q = "notes.txt" then some (⟨"zz", 3⟩ : FsFile) else none)
            (markDownloadComplete ⟨[], [], [], ⟨[]⟩⟩ "notes.txt" (some "hh") 4)
            "notes.txt" FsEvent.change "T" 9).uploadQueue "notes.txt"
          = some ⟨"notes.txt", "notes.txt", 9, some "zz"⟩
        ∧ (handleFileChange (fun q => if q = "notes.txt" then some (⟨"zz", 3⟩ : FsFile) else none)
            (markDownloadComplete ⟨[], [], [], ⟨[]⟩⟩ "notes.txt" (some "hh") 4)
            "notes.txt" FsEvent.change "T" 9).tree
          = (markDownloadComplete ⟨[], [], [], ⟨[]⟩⟩ "notes.txt" (some "hh") 4).tree.addOrUpdateFile
              "notes.txt"
              ⟨basename "notes.txt", some "notes.txt", none, "zz", 3, some "T",
                some (getMimeType "notes.txt")⟩ "T")) :=
  ⟨by decide, Or.inr rfl,
    echo_suppression _ _ "notes.txt" "hh" "zz" "T" 3 4 9 FsEvent.change
      (by decide) (Or.inr rfl)⟩

/-- C3: the client's `downloadFileFromServer` does not verify the
downloaded content against the declared hash.  At an input whose
fetched bytes hash to `hActual` while the metadata declares
`hDeclared`, the file is still written to disk and the local tree is
updated with the declared hash: the item is accepted, not rejected. -/
theorem download_accepts_mismatched_content :
    (downloadFileFromServer (fun _ => none) (some ⟨"hActual", 4⟩)
        ⟨[], [], [], ⟨[]⟩⟩
        ⟨"evil.txt", "evil.txt", none, some "u", "hDeclared", 4, "t", none, some 1⟩
        "T" 5).2 "evil.txt" = some ⟨"hActual", 4⟩
    ∧ mapGet (downloadFileFromServer (fun _ => none) (some ⟨"hActual", 4⟩)
        ⟨[], [], [], ⟨[]⟩⟩
        ⟨"evil.txt", "evil.txt", none, some "u", "hDeclared", 4, "t", none, some 1⟩
        "T" 5).1.tree.getAllFiles "evil.txt"
      = some ⟨"evil.txt", "evil.txt", some "evil.txt", some "u", "hDeclared", 4, "T", none⟩
    ∧ assocGet (downloadFileFromServer (fun _ => none) (some ⟨"hActual", 4⟩)
        ⟨[], [], [], ⟨[]⟩⟩
        ⟨"evil.txt", "evil.txt", none, some "u", "hDeclared", 4, "t", none, some 1⟩
        "T" 5).1.recentlyDownloaded "evil.txt" = some ⟨some "hDeclared", 5⟩
    ∧ ("hActual" : String) ≠ "hDeclared" := by
  refine ⟨?_, ?_, ?_, ?_⟩ <;> decide

/-- C6, counterexample: `performSync` consults no busy flag — invoked
while another cycle is in flight (here: a state in which a download
marked by the first cycle is still pending), it still performs sync
work, namely it snapshots the tree and issues the diff request, instead
of being skipped. -/
theorem performSync_runs_while_busy :
    (performSync "deviceB" "T2" 7 (some ⟨[], [], []⟩) (fun _ => none) (fun _ => none)
        ⟨[], ["notes.txt"], [], ⟨[]⟩⟩).1
      = [SyncAction.diffRequest "deviceB" (MerkleTree.toJSON ⟨[]⟩ "T2")]
    ∧ (performSync "deviceB" "T2" 7 (some ⟨[], [], []⟩) (fun _ => none) (fun _ => none)
        ⟨[], ["notes.txt"], [], ⟨[]⟩⟩).1 ≠ [] := by
  refine ⟨?_, ?_⟩ <;> decide

/-- C6, amended: the sync orchestrator has no mutual-exclusion flag.
Every invocation of `performSync`, whatever the shared watcher state
(including states of an in-flight cycle), begins by issuing the diff
request for the current tree snapshot — an overlapping periodic
trigger therefore runs a full concurrent cycle rather than being
skipped.  (Only the upload-queue drain carries an `isProcessing`
guard.) -/
theorem performSync_always_requests_diff (deviceId now : String) (nowMs : Nat)
    (resp : Option RemoteDifferences) (fetch : RemoteFile → Option FsFile)
    (fs : Fs) (s : WatcherState) :
    (performSync deviceId now nowMs resp fetch fs s).1.head?
      = some (SyncAction.diffRequest deviceId (s.tree.toJSON now)) := by
  cases resp with
  | none => rfl
  | some d =>
    simp only [performSync]
    split
    · rfl
    · rfl

end DropBox
